import Mathlib

/-!
Verification development for the `bitcoin-fee-model` library
(`src/lib.rs`).  The numeric feature values are embedded as exact
rationals (the source's `f32`/`f64` casts are treated as exact
injections); epoch-second timestamps are natural numbers; the Rust
out-of-bounds panic of `fee_buckets[i]` is modelled as `Option.none`;
the fallible `norm_predict` returns `Except Error`.
-/

namespace FeeModelSpec

/-- Modelled from the spec (§7 error taxonomy): the per-call error
returned by `norm_predict` when the assembled named feature vector
lacks a key the model declares.  The construction-time errors
(deserialization, dimension mismatch) never arise here because the two
models are fixed, already-loaded values. -/
inductive Error where
  | missingFeature (name : String)
deriving DecidableEq, Repr

/-- Named feature vector: a finite map from feature name to an exact
numeric value, modelling the source's `HashMap<String, f32>`. -/
abbrev FeatureMap := String → Option ℚ

/-- `HashMap::insert`: later inserts overwrite earlier ones. -/
def insertF (m : FeatureMap) (k : String) (v : ℚ) : FeatureMap :=
  fun k' => if k' = k then some v else m k'

/-- Modelled from the spec (§4.2, the `model_data` module is not under
`src/`): a loaded model is its canonical ordered list of declared
feature names together with the deterministic numeric core (input
normalization, layer stack, output denormalization) collapsed into one
total function on the looked-up feature values. -/
structure ModelData where
  featureNames : List String
  rawPredict : List ℚ → ℚ

/-- Look up every declared feature name, in the model's canonical
order, in the caller-supplied feature map; fail with a
missing-feature error on the first absent name. -/
def lookupFeatures (input : FeatureMap) : List String → Except Error (List ℚ)
  | [] => Except.ok []
  | n :: ns =>
    match input n with
    | none => Except.error (Error.missingFeature n)
    | some v =>
      match lookupFeatures input ns with
      | Except.error e => Except.error e
      | Except.ok vs => Except.ok (v :: vs)

/-- Modelled from the spec (§4.2): `predict` looks up the declared
features and evaluates the numeric core on them.  Exact rational
arithmetic has no non-finite values, so the spec's numeric
(non-finite) error cannot arise in the embedding. -/
def ModelData.norm_predict (md : ModelData) (input : FeatureMap) : Except Error ℚ :=
  match lookupFeatures input md.featureNames with
  | Except.error e => Except.error e
  | Except.ok vs => Except.ok (md.rawPredict vs)

/-- The fee estimator holds exactly two loaded models. -/
structure FeeModel where
  low : ModelData
  high : ModelData

/-- Modelled from the spec (§3, §4.1, the `fee_bucket` module is not
under `src/`): histogram configuration with `bucket_count` buckets of
width `max_value / bucket_count`. -/
structure FeeBuckets where
  bucket_count : ℕ
  max_value : ℚ

/-- Bucket routing: index `⌊rate / width⌋`, clamped to the last valid
index (negative rates saturate to index 0 via `Int.toNat`). -/
def bucketIndex (bucket_count : ℕ) (max_value : ℚ) (rate : ℚ) : ℕ :=
  let width := max_value / (bucket_count : ℚ)
  min (Int.toNat ⌊rate / width⌋) (bucket_count - 1)

/-- Modelled from the spec (§4.1): `get` returns an ordered sequence of
`bucket_count` values, each bucket holding the count of observations
routed to it (the source passes the buckets as `&[u64]`, so the
per-bucket statistic is integral). -/
def FeeBuckets.get (fb : FeeBuckets) (rates : List ℚ) : List ℕ :=
  (List.range fb.bucket_count).map
    (fun j => (rates.filter (fun r => bucketIndex fb.bucket_count fb.max_value r = j)).length)

/-- `chrono`: days from Monday of the UTC weekday of an epoch-second
timestamp; epoch day 0 (1970-01-01) is a Thursday, 3 days from
Monday. -/
def dayOfWeek (t : ℕ) : ℕ := (t / 86400 + 3) % 7

/-- `chrono`: UTC hour of day of an epoch-second timestamp. -/
def hourOfDay (t : ℕ) : ℕ := t % 86400 / 3600

/-- The loop `for i in 0..=15 { input.insert(format!("b{}", i), fee_buckets[i]) }`
from `estimate_with_buckets`; the Rust index panic is `none`. -/
def insertBuckets (m : FeatureMap) (fee_buckets : List ℕ) : List ℕ → Option FeatureMap
  | [] => some m
  | i :: is =>
    match fee_buckets.get? i with
    | none => none
    | some v => insertBuckets (insertF m ("b" ++ toString i) v) fee_buckets is

/-- Feature assembly of `estimate_with_buckets` (src/lib.rs:37-56) at
resolved timestamp `t`. -/
def assembleInput (block_target : ℕ) (t : ℕ) (fee_buckets : List ℕ)
    (last_block_ts : ℕ) : Option FeatureMap :=
  let input0 : FeatureMap := fun _ => none
  let input1 := insertF input0 ("confirms_in") (block_target : ℚ)
  let input2 := insertF input1 ("day_of_week") (dayOfWeek t : ℚ)
  let input3 := insertF input2 ("hour") (hourOfDay t : ℚ)
  let delta : ℤ := (t : ℤ) - (last_block_ts : ℤ)
  let input4 := insertF input3 ("delta_last") (delta : ℚ)
  insertBuckets input4 fee_buckets (List.range 16)

/-- The `match timestamp` of src/lib.rs:40-46: an explicit timestamp is
used as is, otherwise the injected wall clock `now` (`Utc::now()`). -/
def resolveTime (timestamp : Option ℕ) (now : ℕ) : ℕ :=
  match timestamp with
  | some ts => ts
  | none => now

/-- `FeeModel::estimate_with_buckets` (src/lib.rs:30-63).  `now` is the
injected wall clock, consulted only when `timestamp` is `none`; the
outer `Option` is `none` exactly when the bucket indexing panics. -/
def FeeModel.estimate_with_buckets (fm : FeeModel) (block_target : ℕ)
    (timestamp : Option ℕ) (now : ℕ) (fee_buckets : List ℕ)
    (last_block_ts : ℕ) : Option (Except Error ℚ) :=
  let t : ℕ := resolveTime timestamp now
  match assembleInput block_target t fee_buckets last_block_ts with
  | none => none
  | some input =>
    some (if block_target ≤ 2 then fm.low.norm_predict input
          else fm.high.norm_predict input)

/-- `FeeModel::estimate` (src/lib.rs:70-79): builds the 50-bucket,
max-value-500 histogram over the fee observations and delegates. -/
def FeeModel.estimate (fm : FeeModel) (block_target : ℕ) (timestamp : Option ℕ)
    (now : ℕ) (fee_rates : List ℚ) (last_block_ts : ℕ) : Option (Except Error ℚ) :=
  let fee_buckets := (FeeBuckets.mk 50 500).get fee_rates
  fm.estimate_with_buckets block_target timestamp now fee_buckets last_block_ts

/-- The canonical feature keys assembled by `estimate_with_buckets`
(spec §3). -/
def canonicalFeatures : List String :=
  ["confirms_in", "day_of_week", "hour", "delta_last",
   "b0", "b1", "b2", "b3", "b4", "b5", "b6", "b7",
   "b8", "b9", "b10", "b11", "b12", "b13", "b14", "b15"]

/-- A concrete model instance used to witness the universally
quantified theorems below (the real trained weights live in binary
artifacts outside the sources). -/
def demoModel : ModelData :=
  { featureNames := canonicalFeatures, rawPredict := fun vs => vs.sum }

/-- A concrete estimator instance for witnesses. -/
def demoFeeModel : FeeModel := ⟨demoModel, demoModel⟩

/-! ### Helper lemmas -/

theorem hb_length (fb : FeeBuckets) (rates : List ℚ) :
    (fb.get rates).length = fb.bucket_count := by
  simp [FeeBuckets.get]

theorem hb_getElem (fb : FeeBuckets) (rates : List ℚ) (j : ℕ) (hj : j < fb.bucket_count) :
    (fb.get rates).get? j =
      some ((rates.filter
        (fun r => bucketIndex fb.bucket_count fb.max_value r = j)).length) := by
  simp [FeeBuckets.get, List.get?_eq_getElem?, List.getElem?_map, List.getElem?_range hj]

theorem hb_nil : (FeeBuckets.mk 50 500).get [] = List.replicate 50 0 := by
  decide

theorem insertBuckets_congr (is : List ℕ) :
    ∀ (m : FeatureMap) (b1 b2 : List ℕ),
      (∀ i ∈ is, b1.get? i = b2.get? i) →
      insertBuckets m b1 is = insertBuckets m b2 is := by
  induction is with
  | nil => intro m b1 b2 _; rfl
  | cons i is ih =>
    intro m b1 b2 h
    have hi := h i (List.mem_cons_self i is)
    simp only [insertBuckets, hi]
    cases hb : b2.get? i with
    | none => rfl
    | some v => exact ih _ _ _ (fun j hj => h j (List.mem_cons_of_mem _ hj))

theorem insertBuckets_isSome (is : List ℕ) :
    ∀ (m : FeatureMap) (bks : List ℕ),
      (∀ i ∈ is, i < bks.length) → (insertBuckets m bks is).isSome := by
  induction is with
  | nil => intro m bks _; rfl
  | cons i is ih =>
    intro m bks h
    have hi : i < bks.length := h i (List.mem_cons_self i is)
    cases hb : bks.get? i with
    | none =>
      rw [List.get?_eq_none] at hb
      omega
    | some v =>
      simp only [insertBuckets, hb]
      exact ih _ _ (fun j hj => h j (List.mem_cons_of_mem _ hj))

theorem insertBuckets_preserve (is : List ℕ) :
    ∀ (m : FeatureMap) (bks : List ℕ) (m' : FeatureMap),
      insertBuckets m bks is = some m' →
      ∀ k, (∀ i ∈ is, k ≠ "b" ++ toString i) → m' k = m k := by
  induction is with
  | nil =>
    intro m bks m' h k _
    simp only [insertBuckets] at h
    cases h
    rfl
  | cons i is ih =>
    intro m bks m' h k hk
    cases hb : bks.get? i with
    | none =>
      simp only [insertBuckets, hb] at h
      exact Option.noConfusion h
    | some v =>
      simp only [insertBuckets, hb] at h
      have := ih _ _ _ h k (fun j hj => hk j (List.mem_cons_of_mem _ hj))
      rw [this, insertF]
      have : k ≠ "b" ++ toString i := hk i (List.mem_cons_self i is)
      simp [this]

theorem insertBuckets_mono (is : List ℕ) :
    ∀ (m : FeatureMap) (bks : List ℕ) (m' : FeatureMap) (k : String),
      insertBuckets m bks is = some m' → (m k).isSome → (m' k).isSome := by
  induction is with
  | nil =>
    intro m bks m' k h hm
    simp only [insertBuckets] at h
    cases h
    exact hm
  | cons i is ih =>
    intro m bks m' k h hm
    cases hb : bks.get? i with
    | none =>
      simp only [insertBuckets, hb] at h
      exact Option.noConfusion h
    | some v =>
      simp only [insertBuckets, hb] at h
      refine ih _ _ _ _ h ?_
      rw [insertF]
      by_cases hk : k = "b" ++ toString i <;> simp [hk, hm]

theorem insertBuckets_mem_isSome (is : List ℕ) :
    ∀ (m : FeatureMap) (bks : List ℕ) (m' : FeatureMap),
      insertBuckets m bks is = some m' →
      ∀ i ∈ is, (m' ("b" ++ toString i)).isSome := by
  induction is with
  | nil => intro m bks m' _ i hi; cases hi
  | cons i is ih =>
    intro m bks m' h j hj
    cases hb : bks.get? i with
    | none =>
      simp only [insertBuckets, hb] at h
      exact Option.noConfusion h
    | some v =>
      simp only [insertBuckets, hb] at h
      rcases List.mem_cons.mp hj with rfl | hj'
      · refine insertBuckets_mono is _ _ _ _ h ?_
        simp [insertF]
      · exact ih _ _ _ h j hj'

theorem insertBuckets_zeros (is : List ℕ) :
    ∀ (m : FeatureMap) (bks : List ℕ) (m' : FeatureMap),
      (∀ i v, bks.get? i = some v → v = 0) →
      insertBuckets m bks is = some m' →
      ∀ k, m' k = m k ∨ m' k = some 0 := by
  induction is with
  | nil =>
    intro m bks m' _ h k
    simp only [insertBuckets] at h
    cases h
    exact Or.inl rfl
  | cons i is ih =>
    intro m bks m' hz h k
    cases hb : bks.get? i with
    | none =>
      simp only [insertBuckets, hb] at h
      exact Option.noConfusion h
    | some v =>
      simp only [insertBuckets, hb] at h
      have hv : v = 0 := hz i v hb
      subst hv
      rcases ih _ _ _ hz h k with h1 | h1
      · rw [h1, insertF]
        by_cases hk : k = "b" ++ toString i
        · simp [hk]
        · simp [hk]
      · exact Or.inr h1

theorem lookupFeatures_ok (input : FeatureMap) :
    ∀ names : List String, (∀ n ∈ names, (input n).isSome) →
      ∃ vs, lookupFeatures input names = Except.ok vs := by
  intro names
  induction names with
  | nil => intro _; exact ⟨[], rfl⟩
  | cons n ns ih =>
    intro h
    have hn := h n (List.mem_cons_self n ns)
    cases hin : input n with
    | none => rw [hin] at hn; cases hn
    | some v =>
      rcases ih (fun j hj => h j (List.mem_cons_of_mem _ hj)) with ⟨vs, hvs⟩
      exact ⟨v :: vs, by simp only [lookupFeatures, hin, hvs]⟩

theorem replicate_zeros (i : ℕ) (v : ℕ) :
    (List.replicate 50 0).get? i = some v → v = 0 := by
  intro h
  rcases List.get?_eq_some.mp h with ⟨hlt, hget⟩
  rw [List.get_replicate] at hget
  omega

theorem assembleInput_isSome (bt t : ℕ) (bks : List ℕ) (lbts : ℕ)
    (h16 : 16 ≤ bks.length) :
    ∃ inp, assembleInput bt t bks lbts = some inp := by
  have hs : (assembleInput bt t bks lbts).isSome := by
    simp only [assembleInput]
    refine insertBuckets_isSome _ _ _ (fun i hi => ?_)
    have := List.mem_range.mp hi
    omega
  exact Option.isSome_iff_exists.mp hs

theorem assembleInput_time_keys (bt t : ℕ) (bks : List ℕ) (lbts : ℕ)
    (inp : FeatureMap) (h : assembleInput bt t bks lbts = some inp) :
    inp ("confirms_in") = some (bt : ℚ)
    ∧ inp ("day_of_week") = some (dayOfWeek t : ℚ)
    ∧ inp ("hour") = some (hourOfDay t : ℚ)
    ∧ inp ("delta_last") = some (((t : ℤ) - (lbts : ℤ) : ℤ) : ℚ) := by
  simp only [assembleInput] at h
  refine ⟨?_, ?_, ?_, ?_⟩
  · rw [insertBuckets_preserve _ _ _ _ h _ (by decide)]
    simp [insertF]
  · rw [insertBuckets_preserve _ _ _ _ h _ (by decide)]
    simp [insertF]
  · rw [insertBuckets_preserve _ _ _ _ h _ (by decide)]
    simp [insertF]
  · rw [insertBuckets_preserve _ _ _ _ h _ (by decide)]
    simp [insertF]

theorem assembleInput_bucket_isSome (bt t : ℕ) (bks : List ℕ) (lbts : ℕ)
    (inp : FeatureMap) (h : assembleInput bt t bks lbts = some inp) :
    ∀ i, i < 16 → (inp ("b" ++ toString i)).isSome := by
  simp only [assembleInput] at h
  intro i hi
  exact insertBuckets_mem_isSome _ _ _ _ h i (List.mem_range.mpr hi)

theorem assembleInput_zero_buckets (bt t lbts : ℕ) (inp : FeatureMap)
    (h : assembleInput bt t (List.replicate 50 0) lbts = some inp) :
    ∀ i, i < 16 → inp ("b" ++ toString i) = some 0 := by
  intro i hi
  have hsome := assembleInput_bucket_isSome bt t _ lbts inp h i hi
  simp only [assembleInput] at h
  have hne := (show ∀ j ∈ List.range 16,
      ("b" ++ toString j) ≠ ("confirms_in") ∧ ("b" ++ toString j) ≠ ("day_of_week")
      ∧ ("b" ++ toString j) ≠ ("hour") ∧ ("b" ++ toString j) ≠ ("delta_last")
    by decide) i (List.mem_range.mpr hi)
  rcases insertBuckets_zeros (List.range 16) _ _ _ replicate_zeros h
      ("b" ++ toString i) with h1 | h1
  · exfalso
    simp only [insertF, if_neg hne.2.2.2, if_neg hne.2.2.1, if_neg hne.2.1,
      if_neg hne.1] at h1
    rw [h1] at hsome
    cases hsome
  · exact h1

theorem assembleInput_canonical_some (bt t : ℕ) (bks : List ℕ) (lbts : ℕ)
    (inp : FeatureMap) (h : assembleInput bt t bks lbts = some inp) :
    ∀ n ∈ canonicalFeatures, (inp n).isSome := by
  have ht := assembleInput_time_keys bt t bks lbts inp h
  have hb := assembleInput_bucket_isSome bt t bks lbts inp h
  intro n hn
  simp only [canonicalFeatures, List.mem_cons, List.not_mem_nil, or_false] at hn
  rcases hn with rfl|rfl|rfl|rfl|rfl|rfl|rfl|rfl|rfl|rfl|rfl|rfl|rfl|rfl|rfl|rfl|rfl|rfl|rfl|rfl
  · rw [ht.1]; rfl
  · rw [ht.2.1]; rfl
  · rw [ht.2.2.1]; rfl
  · rw [ht.2.2.2]; rfl
  · exact (by decide : ("b" ++ toString (0:ℕ)) = ("b0")) ▸ hb 0 (by norm_num)
  · exact (by decide : ("b" ++ toString (1:ℕ)) = ("b1")) ▸ hb 1 (by norm_num)
  · exact (by decide : ("b" ++ toString (2:ℕ)) = ("b2")) ▸ hb 2 (by norm_num)
  · exact (by decide : ("b" ++ toString (3:ℕ)) = ("b3")) ▸ hb 3 (by norm_num)
  · exact (by decide : ("b" ++ toString (4:ℕ)) = ("b4")) ▸ hb 4 (by norm_num)
  · exact (by decide : ("b" ++ toString (5:ℕ)) = ("b5")) ▸ hb 5 (by norm_num)
  · exact (by decide : ("b" ++ toString (6:ℕ)) = ("b6")) ▸ hb 6 (by norm_num)
  · exact (by decide : ("b" ++ toString (7:ℕ)) = ("b7")) ▸ hb 7 (by norm_num)
  · exact (by decide : ("b" ++ toString (8:ℕ)) = ("b8")) ▸ hb 8 (by norm_num)
  · exact (by decide : ("b" ++ toString (9:ℕ)) = ("b9")) ▸ hb 9 (by norm_num)
  · exact (by decide : ("b" ++ toString (10:ℕ)) = ("b10")) ▸ hb 10 (by norm_num)
  · exact (by decide : ("b" ++ toString (11:ℕ)) = ("b11")) ▸ hb 11 (by norm_num)
  · exact (by decide : ("b" ++ toString (12:ℕ)) = ("b12")) ▸ hb 12 (by norm_num)
  · exact (by decide : ("b" ++ toString (13:ℕ)) = ("b13")) ▸ hb 13 (by norm_num)
  · exact (by decide : ("b" ++ toString (14:ℕ)) = ("b14")) ▸ hb 14 (by norm_num)
  · exact (by decide : ("b" ++ toString (15:ℕ)) = ("b15")) ▸ hb 15 (by norm_num)

theorem norm_predict_ok (md : ModelData) (inp : FeatureMap)
    (hsub : ∀ n ∈ md.featureNames, n ∈ canonicalFeatures)
    (hall : ∀ n ∈ canonicalFeatures, (inp n).isSome) :
    ∃ q, md.norm_predict inp = Except.ok q := by
  rcases lookupFeatures_ok inp md.featureNames (fun n hn => hall n (hsub n hn)) with ⟨vs, hvs⟩
  exact ⟨md.rawPredict vs, by simp only [ModelData.norm_predict, hvs]⟩

theorem bucketIndex_closed (r : ℚ) :
    bucketIndex 50 500 r = min (Int.toNat ⌊r / 10⌋) 49 := by
  unfold bucketIndex
  norm_num

theorem bucketIndex_lt_max (r : ℚ) (h0 : 0 ≤ r) (h : r < 500) :
    bucketIndex 50 500 r = Int.toNat ⌊r / (500 / 50 : ℚ)⌋ := by
  have hw : (500 / 50 : ℚ) = 10 := by norm_num
  rw [bucketIndex_closed, hw]
  have hdiv : r / (10:ℚ) < 50 := by
    rw [div_lt_iff (by norm_num : (0:ℚ) < 10)]
    linarith
  have hlt : ⌊r / (10:ℚ)⌋ < 50 := Int.floor_lt.mpr (by push_cast; exact hdiv)
  exact min_eq_left (by omega)

theorem bucketIndex_ge_max (r : ℚ) (h : 500 ≤ r) :
    bucketIndex 50 500 r = 49 := by
  rw [bucketIndex_closed]
  have hdiv : (50:ℚ) ≤ r / 10 := by
    rw [le_div_iff (by norm_num : (0:ℚ) < 10)]
    linarith
  have hge : (50:ℤ) ≤ ⌊r / (10:ℚ)⌋ := Int.le_floor.mpr (by push_cast; exact hdiv)
  exact min_eq_right (by omega)

/-! ### Claim theorems -/

/-- C1: in every call to `estimate` the model is selected solely by the
confirmation target — the result is the chosen model's prediction on
the assembled features, "low" when `block_target ≤ 2` and "high"
otherwise; in particular `block_target = 2` uses "low" and
`block_target = 3` uses "high". -/
theorem estimate_model_selection (fm : FeeModel) (bt : ℕ) (ts : Option ℕ)
    (now : ℕ) (rates : List ℚ) (lbts : ℕ) :
    fm.estimate bt ts now rates lbts =
      Option.map
        (fun inp => if bt ≤ 2 then fm.low.norm_predict inp else fm.high.norm_predict inp)
        (assembleInput bt (resolveTime ts now) ((FeeBuckets.mk 50 500).get rates) lbts)
    ∧ fm.estimate 2 ts now rates lbts =
      Option.map (fun inp => fm.low.norm_predict inp)
        (assembleInput 2 (resolveTime ts now) ((FeeBuckets.mk 50 500).get rates) lbts)
    ∧ fm.estimate 3 ts now rates lbts =
      Option.map (fun inp => fm.high.norm_predict inp)
        (assembleInput 3 (resolveTime ts now) ((FeeBuckets.mk 50 500).get rates) lbts) := by
  refine ⟨?_, ?_, ?_⟩ <;>
  · simp only [FeeModel.estimate, FeeModel.estimate_with_buckets]
    cases assembleInput _ (resolveTime ts now) ((FeeBuckets.mk 50 500).get rates) lbts with
    | none => rfl
    | some inp => simp

/-- C2: `estimate` builds the histogram with exactly 50 buckets and max
value 500, only the first sixteen bucket values reach the feature
vector, and any two bucket sequences agreeing on indices 0–15 yield
identical results. -/
theorem estimate_first_sixteen_buckets (fm : FeeModel) (bt : ℕ) (ts : Option ℕ)
    (now : ℕ) (rates : List ℚ) (lbts : ℕ) (b1 b2 : List ℕ)
    (hagree : ∀ i, i < 16 → b1.get? i = b2.get? i) :
    fm.estimate bt ts now rates lbts =
      fm.estimate_with_buckets bt ts now ((FeeBuckets.mk 50 500).get rates) lbts
    ∧ fm.estimate_with_buckets bt ts now b1 lbts =
      fm.estimate_with_buckets bt ts now b2 lbts := by
  constructor
  · rfl
  · simp only [FeeModel.estimate_with_buckets, assembleInput]
    rw [insertBuckets_congr (List.range 16) _ b1 b2
      (fun i hi => hagree i (List.mem_range.mp hi))]

/-- C2 witness: two concrete bucket sequences differing only beyond
index 15 give the same result. -/
theorem estimate_first_sixteen_buckets_witness :
    (∀ i, i < 16 →
      (List.replicate 16 (0:ℕ) ++ [3]).get? i = (List.replicate 16 (0:ℕ) ++ [9]).get? i)
    ∧ (demoFeeModel.estimate 1 (some 1613304000) 0 [] 5 =
        demoFeeModel.estimate_with_buckets 1 (some 1613304000) 0
          ((FeeBuckets.mk 50 500).get []) 5
      ∧ demoFeeModel.estimate_with_buckets 1 (some 1613304000) 0
          (List.replicate 16 0 ++ [3]) 5 =
        demoFeeModel.estimate_with_buckets 1 (some 1613304000) 0
          (List.replicate 16 0 ++ [9]) 5) :=
  ⟨by decide,
   estimate_first_sixteen_buckets demoFeeModel 1 (some 1613304000) 0 [] 5
     (List.replicate 16 0 ++ [3]) (List.replicate 16 0 ++ [9]) (by decide)⟩

/-- C4: `estimate` with an explicit timestamp is deterministic — the
injected wall clock is never consulted, so two calls with identical
explicit arguments return identical results. -/
theorem estimate_deterministic (fm : FeeModel) (bt ts now1 now2 : ℕ)
    (rates : List ℚ) (lbts : ℕ) :
    fm.estimate bt (some ts) now1 rates lbts =
      fm.estimate bt (some ts) now2 rates lbts := rfl

/-- C5: the histogram builder at `bucket_count = 50`, `max_value = 500`
returns exactly 50 values, routes a rate `r` to bucket
`⌊r / (500/50)⌋`, clamps every `r ≥ 500` (including exactly 500) to the
last index 49, and maps the empty input to the all-zero histogram. -/
theorem feeBuckets_spec (rates : List ℚ) :
    ((FeeBuckets.mk 50 500).get rates).length = 50
    ∧ (∀ j, j < 50 → ((FeeBuckets.mk 50 500).get rates).get? j =
        some ((rates.filter (fun r => bucketIndex 50 500 r = j)).length))
    ∧ (∀ r : ℚ, 0 ≤ r → r < 500 →
        bucketIndex 50 500 r = Int.toNat ⌊r / (500 / 50 : ℚ)⌋)
    ∧ (∀ r : ℚ, 500 ≤ r → bucketIndex 50 500 r = 49)
    ∧ (FeeBuckets.mk 50 500).get [] = List.replicate 50 0 :=
  ⟨hb_length _ _, fun j hj => hb_getElem _ _ j hj,
   fun r h0 h => bucketIndex_lt_max r h0 h,
   fun r h => bucketIndex_ge_max r h, hb_nil⟩

/-- C5 witness: concrete rates, including the exact boundary 500. -/
theorem feeBuckets_spec_witness :
    ((0:ℚ) ≤ 15 ∧ (15:ℚ) < 500
      ∧ bucketIndex 50 500 (15:ℚ) = Int.toNat ⌊(15:ℚ) / (500 / 50 : ℚ)⌋)
    ∧ ((500:ℚ) ≤ 500 ∧ bucketIndex 50 500 (500:ℚ) = 49)
    ∧ ((3:ℕ) < 50
      ∧ ((FeeBuckets.mk 50 500).get [(1:ℚ), 15, 35, 500]).get? 3 =
          some (([(1:ℚ), 15, 35, 500].filter
            (fun r => bucketIndex 50 500 r = 3)).length)) :=
  ⟨⟨by norm_num, by norm_num,
    (feeBuckets_spec []).2.2.1 15 (by norm_num) (by norm_num)⟩,
   ⟨by norm_num, (feeBuckets_spec []).2.2.2.1 500 (by norm_num)⟩,
   ⟨by norm_num, (feeBuckets_spec [(1:ℚ), 15, 35, 500]).2.1 3 (by norm_num)⟩⟩

/-- C10: the histogram always has 50 entries, so the indexing of
positions 0–15 during feature assembly is always in bounds and
`estimate` never panics (never returns the `none` that models the Rust
index panic). -/
theorem estimate_index_in_bounds (fm : FeeModel) (bt : ℕ) (ts : Option ℕ)
    (now : ℕ) (rates : List ℚ) (lbts : ℕ) :
    ((FeeBuckets.mk 50 500).get rates).length = 50
    ∧ (fm.estimate bt ts now rates lbts).isSome := by
  have hlen := hb_length (FeeBuckets.mk 50 500) rates
  refine ⟨hlen, ?_⟩
  have h16 : 16 ≤ ((FeeBuckets.mk 50 500).get rates).length := by
    rw [hb_length]; decide
  rcases assembleInput_isSome bt (resolveTime ts now) _ lbts h16 with ⟨inp, hinp⟩
  simp only [FeeModel.estimate, FeeModel.estimate_with_buckets, hinp]
  rfl

/-- C3: with an explicit timestamp the assembled feature vector holds
`confirms_in = block_target`, `day_of_week` derived from the timestamp
in UTC with 0 = Monday … 6 = Sunday (anchored at the Monday 1970-01-05
and at the Sunday 2021-02-14), `hour` in 0–23 UTC, and `delta_last`
the signed difference `timestamp − last_block_timestamp`. -/
theorem estimate_time_features (fm : FeeModel) (bt ts now : ℕ) (bks : List ℕ)
    (lbts : ℕ) (h16 : 16 ≤ bks.length) :
    resolveTime (some ts) now = ts
    ∧ dayOfWeek 345600 = 0
    ∧ dayOfWeek 1613304000 = 6
    ∧ ∃ inp, assembleInput bt ts bks lbts = some inp
      ∧ fm.estimate_with_buckets bt (some ts) now bks lbts =
          some (if bt ≤ 2 then fm.low.norm_predict inp else fm.high.norm_predict inp)
      ∧ inp ("confirms_in") = some (bt : ℚ)
      ∧ inp ("day_of_week") = some (dayOfWeek ts : ℚ)
      ∧ dayOfWeek ts < 7
      ∧ inp ("hour") = some (hourOfDay ts : ℚ)
      ∧ hourOfDay ts < 24
      ∧ inp ("delta_last") = some (((ts : ℤ) - (lbts : ℤ) : ℤ) : ℚ) := by
  refine ⟨rfl, by decide, by decide, ?_⟩
  rcases assembleInput_isSome bt ts bks lbts h16 with ⟨inp, hinp⟩
  have ht := assembleInput_time_keys bt ts bks lbts inp hinp
  refine ⟨inp, hinp, ?_, ht.1, ht.2.1, ?_, ht.2.2.1, ?_, ht.2.2.2⟩
  · simp only [FeeModel.estimate_with_buckets, resolveTime, hinp]
  · unfold dayOfWeek
    omega
  · unfold hourOfDay
    omega

/-- C3 witness: the theorem instantiated at `block_target = 3`, the
Sunday timestamp 2021-02-14 12:00 UTC, and a 50-entry bucket list. -/
theorem estimate_time_features_witness :
    16 ≤ (List.replicate 50 (0:ℕ)).length
    ∧ (resolveTime (some 1613304000) 7 = 1613304000
      ∧ dayOfWeek 345600 = 0
      ∧ dayOfWeek 1613304000 = 6
      ∧ ∃ inp, assembleInput 3 1613304000 (List.replicate 50 0) 5 = some inp
        ∧ demoFeeModel.estimate_with_buckets 3 (some 1613304000) 7
            (List.replicate 50 0) 5 =
            some (if 3 ≤ 2 then demoFeeModel.low.norm_predict inp
                  else demoFeeModel.high.norm_predict inp)
        ∧ inp ("confirms_in") = some ((3:ℕ) : ℚ)
        ∧ inp ("day_of_week") = some (dayOfWeek 1613304000 : ℚ)
        ∧ dayOfWeek 1613304000 < 7
        ∧ inp ("hour") = some (hourOfDay 1613304000 : ℚ)
        ∧ hourOfDay 1613304000 < 24
        ∧ inp ("delta_last") = some ((((1613304000:ℕ) : ℤ) - ((5:ℕ) : ℤ) : ℤ) : ℚ)) :=
  ⟨by decide,
   estimate_time_features demoFeeModel 3 1613304000 7 (List.replicate 50 0) 5 (by decide)⟩

/-- C6: an empty fee-observation sequence is not an error: for any
model whose declared features are among the canonical keys, `estimate`
returns a defined `ok` value, and the histogram features `b0`…`b15`
are all zero. -/
theorem estimate_empty_observations (fm : FeeModel) (bt ts now lbts : ℕ)
    (hlow : ∀ n ∈ fm.low.featureNames, n ∈ canonicalFeatures)
    (hhigh : ∀ n ∈ fm.high.featureNames, n ∈ canonicalFeatures) :
    ∃ inp, assembleInput bt ts ((FeeBuckets.mk 50 500).get []) lbts = some inp
      ∧ (∀ i, i < 16 → inp ("b" ++ toString i) = some 0)
      ∧ ∃ q, fm.estimate bt (some ts) now [] lbts = some (Except.ok q) := by
  rcases assembleInput_isSome bt ts ((FeeBuckets.mk 50 500).get []) lbts
    (by rw [hb_length]; decide) with ⟨inp, hinp⟩
  have hzero : ∀ i, i < 16 → inp ("b" ++ toString i) = some 0 := by
    have h' : assembleInput bt ts (List.replicate 50 0) lbts = some inp := by
      rw [← hb_nil]
      exact hinp
    exact assembleInput_zero_buckets bt ts lbts inp h'
  have hall := assembleInput_canonical_some bt ts _ lbts inp hinp
  refine ⟨inp, hinp, hzero, ?_⟩
  by_cases hbt : bt ≤ 2
  · rcases norm_predict_ok fm.low inp hlow hall with ⟨q, hq⟩
    refine ⟨q, ?_⟩
    simp only [FeeModel.estimate, FeeModel.estimate_with_buckets, resolveTime, hinp,
      if_pos hbt, hq]
  · rcases norm_predict_ok fm.high inp hhigh hall with ⟨q, hq⟩
    refine ⟨q, ?_⟩
    simp only [FeeModel.estimate, FeeModel.estimate_with_buckets, resolveTime, hinp,
      if_neg hbt, hq]

/-- C6 witness: a concrete estimator whose models declare the canonical
features, evaluated on the empty observation sequence. -/
theorem estimate_empty_observations_witness :
    (∀ n ∈ demoFeeModel.low.featureNames, n ∈ canonicalFeatures)
    ∧ (∀ n ∈ demoFeeModel.high.featureNames, n ∈ canonicalFeatures)
    ∧ (∃ inp, assembleInput 1 1613304000 ((FeeBuckets.mk 50 500).get []) 5 = some inp
      ∧ (∀ i, i < 16 → inp ("b" ++ toString i) = some 0)
      ∧ ∃ q, demoFeeModel.estimate 1 (some 1613304000) 0 [] 5 = some (Except.ok q)) :=
  ⟨by decide, by decide,
   estimate_empty_observations demoFeeModel 1 1613304000 0 5 (by decide) (by decide)⟩

/-- C9: no positivity or upper-bound precondition is enforced on
`block_target` — every value is accepted (no panic for any target),
and `block_target = 0` is routed to the "low" model (0 ≤ 2) and
evaluated normally. -/
theorem estimate_zero_block_target (fm : FeeModel) (ts : Option ℕ) (now : ℕ)
    (rates : List ℚ) (lbts : ℕ) :
    (∀ bt : ℕ, (fm.estimate bt ts now rates lbts).isSome)
    ∧ ∃ inp,
        assembleInput 0 (resolveTime ts now) ((FeeBuckets.mk 50 500).get rates) lbts
          = some inp
        ∧ fm.estimate 0 ts now rates lbts = some (fm.low.norm_predict inp)
        ∧ inp ("confirms_in") = some ((0:ℕ) : ℚ) := by
  have h16 : 16 ≤ ((FeeBuckets.mk 50 500).get rates).length := by
    rw [hb_length]; decide
  constructor
  · intro bt
    rcases assembleInput_isSome bt (resolveTime ts now) _ lbts h16 with ⟨inp, hinp⟩
    simp only [FeeModel.estimate, FeeModel.estimate_with_buckets, hinp]
    rfl
  · rcases assembleInput_isSome 0 (resolveTime ts now) _ lbts h16 with ⟨inp, hinp⟩
    have ht := assembleInput_time_keys 0 (resolveTime ts now) _ lbts inp hinp
    refine ⟨inp, hinp, ?_, ht.1⟩
    simp only [FeeModel.estimate, FeeModel.estimate_with_buckets, hinp]
    norm_num

end FeeModelSpec
